import Mathlib

/-!
A verification development for the portfolio ledger and daily simulation
engine of a small backtesting framework.

Real-valued quantities (cash, prices, share quantities) are modelled as
rationals, the exact arithmetic that the floating-point source
approximates.  The symbol-keyed position mapping is modelled as an
insertion-ordered association list, matching Python dict semantics; the
in-place mutation of a `Position` object stored in the dict is modelled by
replacing the record stored under its key.  A Python method that can raise
is modelled as a function returning the state as it stood at the raise
point together with an error flag, so that "does not mutate on failure" is
a provable statement rather than a typing artefact.
-/

namespace Backtest

/-- One held position: symbol, share quantity, average cost basis. -/
structure Position where
  symbol : String
  quantity : ℚ
  avg_price : ℚ
deriving DecidableEq, Repr

/-- `Position.market_value`: quantity × price. -/
def Position.market_value (pos : Position) (price : ℚ) : ℚ :=
  pos.quantity * price

/-- The portfolio ledger: the cash balance plus the symbol → position
mapping (`_positions` in the source), as an insertion-ordered association
list. -/
structure Portfolio where
  cash : ℚ
  positions : List (String × Position)
deriving DecidableEq, Repr

/-- The keys of an association list, in insertion order. -/
def keys (l : List (String × Position)) : List String :=
  l.map Prod.fst

/-- Python `dict.get`: the value stored under the first (in a dict, only)
occurrence of a key. -/
def lookupPos (l : List (String × Position)) (s : String) : Option Position :=
  match l with
  | [] => none
  | kv :: rest => if kv.1 = s then some kv.2 else lookupPos rest s

/-- In-place mutation of the `Position` object stored under a key: the
dict keeps its key set and order, the stored record changes. -/
def setPos (l : List (String × Position)) (s : String) (pos : Position) :
    List (String × Position) :=
  l.map fun kv => if kv.1 = s then (kv.1, pos) else kv

/-- `Portfolio.get_position`: return the position for a symbol, inserting
a fresh zero-quantity one if absent.  The possibly-updated portfolio is
returned alongside, since the source mutates `self._positions`. -/
def Portfolio.get_position (p : Portfolio) (symbol : String) : Position × Portfolio :=
  match lookupPos p.positions symbol with
  | some pos => (pos, p)
  | none =>
      let pos : Position := ⟨symbol, 0, 0⟩
      (pos, { p with positions := p.positions ++ [(symbol, pos)] })

/-- `Portfolio.remove_position`: delete the symbol from the mapping if
present; no-op otherwise. -/
def Portfolio.remove_position (p : Portfolio) (symbol : String) : Portfolio :=
  { p with positions := p.positions.filter fun kv => kv.1 ≠ symbol }

/-- `Portfolio.total_value`: cash plus the market value of every held
position whose symbol the price lookup covers; uncovered symbols are
skipped. -/
def Portfolio.total_value (p : Portfolio) (price_lookup : String → Option ℚ) : ℚ :=
  p.positions.foldl
    (fun value kv =>
      match price_lookup kv.1 with
      | none => value
      | some price => value + kv.2.market_value price)
    p.cash

/-- `Portfolio.sell`: clamp the quantity to the held quantity, credit the
proceeds, and when the resulting quantity is exactly zero reset the
average cost and drop the position from the mapping. -/
def Portfolio.sell (p : Portfolio) (symbol : String) (quantity price : ℚ) : Portfolio :=
  let gp := p.get_position symbol
  let position := gp.1
  let p1 := gp.2
  let q := min quantity position.quantity
  let proceeds := q * price
  let newQty := position.quantity - q
  let p2 :=
    { p1 with positions := setPos p1.positions symbol { position with quantity := newQty } }
  let p3 :=
    if newQty = 0 then
      Portfolio.remove_position
        { p2 with
          positions :=
            setPos p2.positions symbol { position with quantity := newQty, avg_price := 0 } }
        symbol
    else p2
  { p3 with cash := p3.cash + proceeds }

/-- The one failure the ledger can raise: `buy` with insufficient cash
(`ValueError` in the source). -/
inductive BuyError
  | insufficient_cash
deriving DecidableEq, Repr

/-- `Portfolio.buy`: no-op for non-positive quantity; raise — returning
the portfolio exactly as it stood at the raise point — when the cost
strictly exceeds cash; otherwise blend the average cost, add the quantity
and pay the cost out of cash. -/
def Portfolio.buy (p : Portfolio) (symbol : String) (quantity price : ℚ) :
    Portfolio × Option BuyError :=
  if quantity ≤ 0 then (p, none)
  else
    let cost := quantity * price
    if p.cash < cost then (p, some BuyError.insufficient_cash)
    else
      let gp := p.get_position symbol
      let position := gp.1
      let p1 := gp.2
      let total_cost := position.avg_price * position.quantity + cost
      let newQty := position.quantity + quantity
      let p2 :=
        { p1 with
          positions :=
            setPos p1.positions symbol
              { position with quantity := newQty, avg_price := total_cost / newQty } }
      ({ p2 with cash := p2.cash - cost }, none)

/-- The quantity stored under a key of an association list (zero when the
key is absent). -/
def qtyAt (l : List (String × Position)) (s : String) : ℚ :=
  match lookupPos l s with
  | some pos => pos.quantity
  | none => 0

/-- The quantity held for a symbol (zero when the symbol is unheld). -/
def Portfolio.heldQty (p : Portfolio) (symbol : String) : ℚ :=
  qtyAt p.positions symbol

/-- An OHLCV bar.  `open` is a Lean keyword, hence the `open_price` /
`close_price` field names for the source's `open` / `close`. -/
structure Bar where
  date : ℕ
  open_price : ℚ
  high : ℚ
  low : ℚ
  close_price : ℚ
  volume : ℚ
deriving DecidableEq, Repr

/-- The data provider, abstracted to exactly what the engine consumes:
the index calendar (`get_index_data().index`) and the per-symbol daily
bars (`get_bar`). -/
structure AkshareDataProvider where
  index_dates : List ℕ
  get_bar : String → ℕ → Option Bar

/-- `get_close_prices(symbols, date)`: the symbol → closing-price dict, as
the partial function it represents (a key is present iff it was requested
and a bar exists for it on that date). -/
def AkshareDataProvider.get_close_prices (dp : AkshareDataProvider)
    (symbols : List String) (date : ℕ) : String → Option ℚ :=
  fun s => if s ∈ symbols then (dp.get_bar s date).map Bar.close_price else none

/-- `get_open_prices(symbols, date)`: same semantics for the opening
price. -/
def AkshareDataProvider.get_open_prices (dp : AkshareDataProvider)
    (symbols : List String) (date : ℕ) : String → Option ℚ :=
  fun s => if s ∈ symbols then (dp.get_bar s date).map Bar.open_price else none

/-- Modelled from the spec: `Order` is declared in `strategy.py`, which is
not among the sources; per the spec it is "symbol + target fraction of
total portfolio value", the two fields the engine reads. -/
structure Order where
  symbol : String
  target_percent : ℚ
deriving DecidableEq, Repr

/-- A decision policy as the engine invokes it: from the contents of the
strategy context that vary per call (current date and portfolio; the data
provider is fixed for a run) to the list of orders returned. -/
def Strategy : Type :=
  ℕ → Portfolio → List Order

/-- Python raises an uncaught `ZeroDivisionError` when
`value_diff / price` divides by a zero closing price (only `ValueError`
from `buy` is caught in `_execute_orders`); the error aborts the whole
run. -/
inductive ZeroDivisionError
  | float_division_by_zero
deriving DecidableEq, Repr

/-- The body of the per-order loop of `Backtester._execute_orders`: skip
the order if its symbol has no closing price; raise `ZeroDivisionError`
(returning the state as it stood at the raise point) when the closing
price is exactly zero, since the source divides `value_diff / price`
unguarded; otherwise trade the difference between target value and
current value, skipping a buy that fails for insufficient cash. -/
def processOrder (close_prices : String → Option ℚ) (total_value : ℚ)
    (p : Portfolio) (order : Order) : Portfolio × Option ZeroDivisionError :=
  match close_prices order.symbol with
  | none => (p, none)
  | some price =>
      let target_value := total_value * order.target_percent
      let current_value :=
        match lookupPos p.positions order.symbol with
        | some pos => pos.quantity * price
        | none => 0
      let value_diff := target_value - current_value
      if price = 0 then (p, some ZeroDivisionError.float_division_by_zero)
      else
        let quantity := value_diff / price
        if 0 < quantity then ((p.buy order.symbol quantity price).1, none)
        else if quantity < 0 then (p.sell order.symbol (-quantity) price, none)
        else (p, none)

/-- The per-order `for` loop of `_execute_orders`: orders are processed in
sequence, and an uncaught `ZeroDivisionError` aborts the loop with the
state as it stood at the raise point. -/
def processOrdersLoop (close_prices : String → Option ℚ) (total_value : ℚ) :
    List Order → Portfolio → Portfolio × Option ZeroDivisionError
  | [], p => (p, none)
  | o :: rest, p =>
      match processOrder close_prices total_value p o with
      | (p1, none) => processOrdersLoop close_prices total_value rest p1
      | (p1, some e) => (p1, some e)

/-- `Backtester._execute_orders`: fetch closing prices for the order
symbols; if the resulting dict is empty, treat the date as a no-trade day;
otherwise size every order against the total value computed from closing
prices over the union of held and order symbols, and process the orders in
sequence.  A `ZeroDivisionError` from the loop propagates out. -/
def execute_orders (dp : AkshareDataProvider) (date : ℕ) (orders : List Order)
    (p : Portfolio) : Portfolio × Option ZeroDivisionError :=
  let symbols := orders.map Order.symbol
  let close_prices := dp.get_close_prices symbols date
  if symbols.all fun s => (close_prices s).isNone then (p, none)
  else
    let all_symbols := keys p.positions ++ symbols
    let valuation_prices := dp.get_close_prices all_symbols date
    let total_value := p.total_value valuation_prices
    processOrdersLoop close_prices total_value orders p

/-- The mark-to-market computation inside the date loop of
`Backtester.run`: cash plus quantity × next-date open over held symbols
that have a bar on the next date; symbols without one are skipped. -/
def markToMarket (dp : AkshareDataProvider) (next_date : ℕ) (p : Portfolio) : ℚ :=
  let next_open_prices := dp.get_open_prices (keys p.positions) next_date
  p.positions.foldl
    (fun value kv =>
      match next_open_prices kv.1 with
      | none => value
      | some price => value + kv.2.quantity * price)
    p.cash

/-- One iteration of the date loop of `Backtester.run`: ask the strategy
for orders, execute them at the current date's closes, then value the
account at the next date's opens.  An uncaught `ZeroDivisionError` from
execution aborts the iteration before mark-to-market; the error carries
the portfolio as it stood at the raise point. -/
def runStep (dp : AkshareDataProvider) (strategy : Strategy) (p : Portfolio)
    (current next : ℕ) : Except Portfolio (Portfolio × ℚ) :=
  let orders := strategy current p
  match execute_orders dp current orders p with
  | (p1, some _) => Except.error p1
  | (p1, none) => Except.ok (p1, markToMarket dp next p1)

/-- The date loop of `Backtester.run` over the consecutive calendar pairs,
returning the final portfolio and the accumulated result dates/values, or
aborting on an uncaught `ZeroDivisionError` with the portfolio at the
raise point (the locally accumulated lists are lost, as in the source). -/
def runLoop (dp : AkshareDataProvider) (strategy : Strategy) :
    List (ℕ × ℕ) → Portfolio → Except Portfolio (Portfolio × (List ℕ × List ℚ))
  | [], p => Except.ok (p, ([], []))
  | (c, n) :: rest, p =>
      match runStep dp strategy p c n with
      | Except.error p1 => Except.error p1
      | Except.ok (p1, v) =>
          match runLoop dp strategy rest p1 with
          | Except.error pf => Except.error pf
          | Except.ok (pf, r) => Except.ok (pf, (n :: r.1, v :: r.2))

/-- The failures a run can raise: fewer than two calendar dates
(`ValueError("Not enough index data...")`), or the uncaught
`ZeroDivisionError` from sizing an order against a zero closing price. -/
inductive RunError
  | not_enough_index_data
  | zero_division
deriving DecidableEq, Repr

/-- `BacktestResult`: the (date, account value) series, parallel lists as
in the source. -/
structure BacktestResult where
  dates : List ℕ
  values : List ℚ
deriving DecidableEq, Repr

/-- `Backtester.run`: fail on a calendar of fewer than two dates, else
simulate each consecutive date pair.  The final portfolio is returned
alongside the result; on either failure it is the portfolio as it stood
at the raise point, and no result is produced. -/
def run (dp : AkshareDataProvider) (strategy : Strategy) (p : Portfolio) :
    Portfolio × Except RunError BacktestResult :=
  if dp.index_dates.length < 2 then (p, Except.error RunError.not_enough_index_data)
  else
    match runLoop dp strategy (dp.index_dates.zip dp.index_dates.tail) p with
    | Except.error pf => (pf, Except.error RunError.zero_division)
    | Except.ok (pf, r) => (pf, Except.ok ⟨r.1, r.2⟩)

/-- Modelled from the spec: `StrategyContext` is declared in `strategy.py`,
which is not among the sources.  Per the spec it exposes the current date,
the data provider and — in the spec's own words — "the live Portfolio";
`Backtester.run` passes `self.portfolio` itself into the context, so a
Portfolio mutation performed by the policy through the context acts on the
engine's own portfolio.  A raw strategy therefore returns, next to its
orders, the portfolio as it stands after the policy call; the engine
continues from that state, which is what the aliasing amounts to. -/
def RawStrategy : Type :=
  ℕ → Portfolio → List Order × Portfolio

/-- One iteration of the date loop with a raw (possibly mutating)
strategy. -/
def runStepRaw (dp : AkshareDataProvider) (strategy : RawStrategy) (p : Portfolio)
    (current next : ℕ) : Except Portfolio (Portfolio × ℚ) :=
  let res := strategy current p
  match execute_orders dp current res.1 res.2 with
  | (p1, some _) => Except.error p1
  | (p1, none) => Except.ok (p1, markToMarket dp next p1)

/-- The date loop of `Backtester.run` with a raw strategy. -/
def runLoopRaw (dp : AkshareDataProvider) (strategy : RawStrategy) :
    List (ℕ × ℕ) → Portfolio → Except Portfolio (Portfolio × (List ℕ × List ℚ))
  | [], p => Except.ok (p, ([], []))
  | (c, n) :: rest, p =>
      match runStepRaw dp strategy p c n with
      | Except.error p1 => Except.error p1
      | Except.ok (p1, v) =>
          match runLoopRaw dp strategy rest p1 with
          | Except.error pf => Except.error pf
          | Except.ok (pf, r) => Except.ok (pf, (n :: r.1, v :: r.2))

/-- `Backtester.run` with a raw strategy. -/
def runRaw (dp : AkshareDataProvider) (strategy : RawStrategy) (p : Portfolio) :
    Portfolio × Except RunError BacktestResult :=
  if dp.index_dates.length < 2 then (p, Except.error RunError.not_enough_index_data)
  else
    match runLoopRaw dp strategy (dp.index_dates.zip dp.index_dates.tail) p with
    | Except.error pf => (pf, Except.error RunError.zero_division)
    | Except.ok (pf, r) => (pf, Except.ok ⟨r.1, r.2⟩)

/-- A direct `Portfolio.buy` / `Portfolio.sell` call, with the arguments
the caller passes. -/
inductive TradeOp
  | buy (symbol : String) (quantity price : ℚ)
  | sell (symbol : String) (quantity price : ℚ)
deriving DecidableEq, Repr

/-- The symbol a trade call refers to. -/
def TradeOp.symbol : TradeOp → String
  | .buy s _ _ => s
  | .sell s _ _ => s

/-- The execution price a trade call uses. -/
def TradeOp.price : TradeOp → ℚ
  | .buy _ _ price => price
  | .sell _ _ price => price

/-- Apply one trade call; a buy that raises leaves the state unchanged. -/
def applyTrade (p : Portfolio) : TradeOp → Portfolio
  | .buy s q price => (p.buy s q price).1
  | .sell s q price => p.sell s q price

/-- Apply a sequence of trade calls in order. -/
def applyTrades (p : Portfolio) (ops : List TradeOp) : Portfolio :=
  ops.foldl applyTrade p

/-- A call to one of the public `Portfolio` operations. -/
inductive PortfolioOp
  | buy (symbol : String) (quantity price : ℚ)
  | sell (symbol : String) (quantity price : ℚ)
  | get_position (symbol : String)
  | remove_position (symbol : String)
deriving DecidableEq, Repr

/-- Apply one public operation; a buy that raises leaves the state
unchanged. -/
def applyOp (p : Portfolio) : PortfolioOp → Portfolio
  | .buy s q price => (p.buy s q price).1
  | .sell s q price => p.sell s q price
  | .get_position s => (p.get_position s).2
  | .remove_position s => p.remove_position s

/-- Apply a sequence of public operations in order. -/
def applyOps (p : Portfolio) (ops : List PortfolioOp) : Portfolio :=
  ops.foldl applyOp p

/-- The operation's price argument is non-negative (trivially true for the
priceless operations). -/
def PortfolioOp.priceNonneg : PortfolioOp → Prop
  | .buy _ _ price => 0 ≤ price
  | .sell _ _ price => 0 ≤ price
  | .get_position _ => True
  | .remove_position _ => True

/-- A sell's quantity argument is non-negative (trivially true for the
other operations). -/
def PortfolioOp.sellQtyNonneg : PortfolioOp → Prop
  | .sell _ q _ => 0 ≤ q
  | _ => True

/-- The state invariant behind cash non-negativity: cash and every held
quantity are non-negative. -/
def Portfolio.Sane (p : Portfolio) : Prop :=
  0 ≤ p.cash ∧ ∀ kv ∈ p.positions, 0 ≤ kv.2.quantity

/-- The union of held symbols and order symbols, as the spec's sizing rule
describes it: held symbols first, then the order symbols not already held,
each once. -/
def unionSyms (p : Portfolio) (orders : List Order) : List String :=
  keys p.positions ++ ((orders.map Order.symbol).filter fun s => s ∉ keys p.positions).dedup

/-- A two-date calendar with no bars at all, for exercising the engine
loop in isolation. -/
def bareDP : AkshareDataProvider :=
  ⟨[0, 1], fun _ _ => none⟩

/-- The spec's worked scenario, as a data provider: symbol "A" closes at
100 on date 0 and opens at 110 on date 1; nothing else trades. -/
def scenarioDP : AkshareDataProvider :=
  ⟨[0, 1, 2], fun s d =>
    if s = "A" then
      if d = 0 then some ⟨0, 100, 100, 100, 100, 0⟩
      else if d = 1 then some ⟨1, 110, 110, 110, 110, 0⟩
      else none
    else none⟩

/-- The spec's worked scenario, as a strategy: one order for half the
portfolio in "A" on date 0, nothing afterwards. -/
def scenarioStrategy : Strategy :=
  fun d _ => if d = 0 then [⟨"A", 1 / 2⟩] else []

/-- A small concrete portfolio used to instantiate theorems: 100 cash and
two shares of "A" bought at 10. -/
def samplePortfolio : Portfolio :=
  ⟨100, [("A", ⟨"A", 2, 10⟩)]⟩

/-- A price lookup quoting "A" at 10 and nothing else. -/
def sampleLookup : String → Option ℚ :=
  fun s => if s = "A" then some 10 else none

/-- A price lookup quoting "Z" at exactly 0 — `Bar` only requires
`close ≥ 0`, so a zero close is servable data. -/
def zeroLookup : String → Option ℚ :=
  fun s => if s = "Z" then some 0 else none

/-- A two-date calendar on which symbol "Z" trades with a closing price of
exactly zero on the first date. -/
def zeroCloseDP : AkshareDataProvider :=
  ⟨[0, 1], fun s d => if s = "Z" ∧ d = 0 then some ⟨0, 0, 0, 0, 0, 0⟩ else none⟩

/-- A strategy that always orders the zero-close symbol "Z". -/
def zeroCloseStrategy : Strategy :=
  fun _ _ => [⟨"Z", 1⟩]

/-- The contribution of one mapping entry to a skip-missing valuation:
market value when the lookup covers the symbol, zero otherwise. -/
def contrib (L : String → Option ℚ) (kv : String × Position) : ℚ :=
  match L kv.1 with
  | none => 0
  | some price => kv.2.market_value price

/-- A one-date calendar, for exercising the insufficient-data branch. -/
def soloDP : AkshareDataProvider :=
  ⟨[0], fun _ _ => none⟩

/-- The execution-step sizing valuation in the spec's words: cash plus
quantity × current-date close over the union of held symbols and order
symbols, any symbol without a closing price contributing zero. -/
def specSizingValue (dp : AkshareDataProvider) (date : ℕ) (p : Portfolio)
    (orders : List Order) : ℚ :=
  p.cash + ((unionSyms p orders).map fun s =>
    p.heldQty s * ((dp.get_bar s date).map Bar.close_price).getD 0).sum

/-! ### Association-list lemmas -/

theorem setPos_cons (kv : String × Position) (rest : List (String × Position))
    (s : String) (pos : Position) :
    setPos (kv :: rest) s pos
      = (if kv.1 = s then (kv.1, pos) else kv) :: setPos rest s pos :=
  rfl

theorem keys_append (l l2 : List (String × Position)) :
    keys (l ++ l2) = keys l ++ keys l2 :=
  List.map_append _ _ _

theorem keys_cons (kv : String × Position) (rest : List (String × Position)) :
    keys (kv :: rest) = kv.1 :: keys rest :=
  rfl

theorem not_mem_keys_cons {kv : String × Position} {rest : List (String × Position)}
    {s : String} (h : s ∉ keys (kv :: rest)) : kv.1 ≠ s ∧ s ∉ keys rest := by
  rw [keys_cons] at h
  constructor
  · intro hk
    exact h (hk ▸ List.mem_cons_self _ _)
  · intro hm
    exact h (List.mem_cons_of_mem _ hm)

theorem lookupPos_eq_none (l : List (String × Position)) (s : String) :
    lookupPos l s = none ↔ s ∉ keys l := by
  induction l with
  | nil => simp [lookupPos, keys]
  | cons kv rest ih =>
      rw [lookupPos, keys_cons]
      by_cases h : kv.1 = s
      · simp [h]
      · rw [if_neg h, List.mem_cons, ih]
        constructor
        · intro hn hc
          rcases hc with hc | hc
          · exact h hc.symm
          · exact hn hc
        · intro hn
          exact fun hc => hn (Or.inr hc)

theorem mem_keys_of_lookup {l : List (String × Position)} {s : String} {pos : Position}
    (h : lookupPos l s = some pos) : s ∈ keys l := by
  by_contra hn
  rw [← lookupPos_eq_none l s] at hn
  rw [h] at hn
  exact Option.noConfusion hn

theorem lookup_mem {l : List (String × Position)} {s : String} {pos : Position}
    (h : lookupPos l s = some pos) : (s, pos) ∈ l := by
  induction l with
  | nil => simp [lookupPos] at h
  | cons kv rest ih =>
      by_cases hk : kv.1 = s
      · subst hk
        rw [lookupPos, if_pos rfl] at h
        obtain rfl : kv.2 = pos := Option.some.inj h
        exact List.mem_cons_self _ _
      · rw [lookupPos, if_neg hk] at h
        exact List.mem_cons_of_mem _ (ih h)

theorem keys_setPos (l : List (String × Position)) (s : String) (pos : Position) :
    keys (setPos l s pos) = keys l := by
  induction l with
  | nil => rfl
  | cons kv rest ih =>
      rw [setPos, List.map_cons]
      by_cases h : kv.1 = s
      · rw [if_pos h, keys_cons, keys_cons]
        exact congrArg _ ih
      · rw [if_neg h, keys_cons, keys_cons]
        exact congrArg _ ih

theorem setPos_of_not_mem (l : List (String × Position)) (s : String) (pos : Position)
    (h : s ∉ keys l) : setPos l s pos = l := by
  induction l with
  | nil => rfl
  | cons kv rest ih =>
      obtain ⟨hk, hrest⟩ := not_mem_keys_cons h
      rw [setPos, List.map_cons, if_neg hk]
      exact congrArg _ (ih hrest)

theorem filter_ne_of_not_mem (l : List (String × Position)) (s : String)
    (h : s ∉ keys l) : (l.filter fun kv => kv.1 ≠ s) = l := by
  induction l with
  | nil => rfl
  | cons kv rest ih =>
      obtain ⟨hk, hrest⟩ := not_mem_keys_cons h
      rw [List.filter_cons, if_pos (by simpa using hk)]
      exact congrArg _ (ih hrest)

theorem lookupPos_setPos_self (l : List (String × Position)) (s : String) (pos : Position)
    (h : s ∈ keys l) : lookupPos (setPos l s pos) s = some pos := by
  induction l with
  | nil => simp [keys] at h
  | cons kv rest ih =>
      by_cases hk : kv.1 = s
      · rw [setPos, List.map_cons, if_pos hk, lookupPos, if_pos hk]
      · rw [setPos, List.map_cons, if_neg hk, lookupPos, if_neg hk]
        rw [keys_cons, List.mem_cons] at h
        rcases h with h | h
        · exact absurd h.symm hk
        · exact ih h

theorem lookupPos_append_of_not_mem (l l2 : List (String × Position)) (s : String)
    (h : s ∉ keys l) : lookupPos (l ++ l2) s = lookupPos l2 s := by
  induction l with
  | nil => rfl
  | cons kv rest ih =>
      obtain ⟨hk, hrest⟩ := not_mem_keys_cons h
      rw [List.cons_append, lookupPos, if_neg hk]
      exact ih hrest

theorem nodup_keys_filter (l : List (String × Position)) (P : String × Position → Bool)
    (h : (keys l).Nodup) : (keys (l.filter P)).Nodup :=
  h.sublist (List.Sublist.map _ (List.filter_sublist l))

/-! ### Sum machinery -/

theorem foldl_match_sum (L : String → Option ℚ) (g : String × Position → ℚ → ℚ) :
    ∀ (l : List (String × Position)) (init : ℚ),
      l.foldl
          (fun value kv =>
            match L kv.1 with
            | none => value
            | some price => value + g kv price)
          init
        = init + (l.map fun kv =>
            match L kv.1 with
            | none => 0
            | some price => g kv price).sum := by
  intro l
  induction l with
  | nil => intro init; simp
  | cons kv rest ih =>
      intro init
      rw [List.foldl_cons, List.map_cons, List.sum_cons, ih]
      cases hL : L kv.1 with
      | none => simp
      | some price => simp [add_assoc]

theorem total_value_eq_sum (p : Portfolio) (L : String → Option ℚ) :
    p.total_value L = p.cash + (p.positions.map (contrib L)).sum :=
  foldl_match_sum L (fun kv price => kv.2.market_value price) p.positions p.cash

theorem markToMarket_eq_sum (dp : AkshareDataProvider) (next_date : ℕ) (p : Portfolio) :
    markToMarket dp next_date p
      = p.cash
        + (p.positions.map
            (contrib (dp.get_open_prices (keys p.positions) next_date))).sum :=
  foldl_match_sum (dp.get_open_prices (keys p.positions) next_date)
    (fun kv price => kv.2.quantity * price) p.positions p.cash

theorem sum_map_setPos (f : String × Position → ℚ) :
    ∀ (l : List (String × Position)) (s : String) (old pos : Position),
      (keys l).Nodup → lookupPos l s = some old →
      ((setPos l s pos).map f).sum = (l.map f).sum - f (s, old) + f (s, pos) := by
  intro l
  induction l with
  | nil => intro s old pos _ h; simp [lookupPos] at h
  | cons kv rest ih =>
      intro s old pos hnd hlk
      rw [keys_cons, List.nodup_cons] at hnd
      by_cases hk : kv.1 = s
      · subst hk
        rw [lookupPos, if_pos rfl] at hlk
        obtain rfl : kv.2 = old := Option.some.inj hlk
        rw [setPos_cons, if_pos rfl, setPos_of_not_mem rest kv.1 pos hnd.1,
          List.map_cons, List.sum_cons, List.map_cons, List.sum_cons]
        have hkv : f kv = f (kv.1, kv.2) := rfl
        rw [← hkv]
        ring
      · rw [lookupPos, if_neg hk] at hlk
        rw [setPos_cons, if_neg hk, List.map_cons, List.sum_cons, List.map_cons,
          List.sum_cons, ih s old pos hnd.2 hlk]
        ring

theorem sum_map_filter_ne (f : String × Position → ℚ) :
    ∀ (l : List (String × Position)) (s : String) (old : Position),
      (keys l).Nodup → lookupPos l s = some old →
      ((l.filter fun kv => kv.1 ≠ s).map f).sum = (l.map f).sum - f (s, old) := by
  intro l
  induction l with
  | nil => intro s old _ h; simp [lookupPos] at h
  | cons kv rest ih =>
      intro s old hnd hlk
      rw [keys_cons, List.nodup_cons] at hnd
      by_cases hk : kv.1 = s
      · subst hk
        rw [lookupPos, if_pos rfl] at hlk
        obtain rfl : kv.2 = old := Option.some.inj hlk
        rw [List.filter_cons, if_neg (by simp), filter_ne_of_not_mem rest kv.1 hnd.1]
        have hkv : f kv = f (kv.1, kv.2) := rfl
        rw [List.map_cons, List.sum_cons, ← hkv]
        ring
      · rw [lookupPos, if_neg hk] at hlk
        rw [List.filter_cons, if_pos (by simpa using hk), List.map_cons, List.sum_cons,
          List.map_cons, List.sum_cons, ih s old hnd.2 hlk]
        ring

theorem sum_keys_qty (g : String → ℚ) :
    ∀ (l : List (String × Position)), (keys l).Nodup →
      ((keys l).map fun s => qtyAt l s * g s).sum
        = (l.map fun kv => kv.2.quantity * g kv.1).sum := by
  intro l
  induction l with
  | nil => simp [keys]
  | cons kv rest ih =>
      intro hnd
      rw [keys_cons, List.nodup_cons] at hnd
      rw [keys_cons, List.map_cons, List.sum_cons, List.map_cons, List.sum_cons]
      have hhead : qtyAt (kv :: rest) kv.1 = kv.2.quantity := by
        rw [qtyAt, lookupPos, if_pos rfl]
      have htail :
          (keys rest).map (fun s => qtyAt (kv :: rest) s * g s)
            = (keys rest).map fun s => qtyAt rest s * g s := by
        refine List.map_congr_left fun s hs => ?_
        have hne : kv.1 ≠ s := fun h => hnd.1 (h ▸ hs)
        rw [qtyAt, lookupPos, if_neg hne, qtyAt]
      rw [hhead, htail, ih hnd.2]

theorem contrib_at (L : String → Option ℚ) (s : String) (pr : ℚ) (hL : L s = some pr)
    (pos : Position) : contrib L (s, pos) = pos.quantity * pr := by
  simp [contrib, hL, Position.market_value]

/-! ### Per-operation conservation -/

theorem sell_total_value (p : Portfolio) (s : String) (q pr : ℚ)
    (L : String → Option ℚ)
    (hWF : (keys p.positions).Nodup) (hL : L s = some pr) :
    (p.sell s q pr).total_value L = p.total_value L := by
  rcases hlk : lookupPos p.positions s with _ | pos
  · have hnot : s ∉ keys p.positions := (lookupPos_eq_none _ _).mp hlk
    have hnd1 : (keys (p.positions ++ [(s, (⟨s, 0, 0⟩ : Position))])).Nodup := by
      rw [keys_append]
      refine hWF.append (List.nodup_singleton s) ?_
      intro a ha hb
      rw [show keys [(s, (⟨s, 0, 0⟩ : Position))] = [s] from rfl, List.mem_singleton] at hb
      subst hb
      exact hnot ha
    have hlk1 : lookupPos (p.positions ++ [(s, (⟨s, 0, 0⟩ : Position))]) s
        = some ⟨s, 0, 0⟩ := by
      rw [lookupPos_append_of_not_mem _ _ _ hnot, lookupPos, if_pos rfl]
    have hmem1 : s ∈ keys (p.positions ++ [(s, (⟨s, 0, 0⟩ : Position))]) :=
      mem_keys_of_lookup hlk1
    have h1 : lookupPos (setPos (p.positions ++ [(s, (⟨s, 0, 0⟩ : Position))]) s
        (⟨s, 0 - min q 0, 0⟩ : Position)) s = some ⟨s, 0 - min q 0, 0⟩ :=
      lookupPos_setPos_self _ _ _ hmem1
    have hndA : (keys (setPos (p.positions ++ [(s, (⟨s, 0, 0⟩ : Position))]) s
        (⟨s, 0 - min q 0, 0⟩ : Position))).Nodup := by
      rw [keys_setPos]; exact hnd1
    have hmemA : s ∈ keys (setPos (p.positions ++ [(s, (⟨s, 0, 0⟩ : Position))]) s
        (⟨s, 0 - min q 0, 0⟩ : Position)) := by
      rw [keys_setPos]; exact hmem1
    have h2 : lookupPos (setPos (setPos (p.positions ++ [(s, (⟨s, 0, 0⟩ : Position))]) s
        (⟨s, 0 - min q 0, 0⟩ : Position)) s (⟨s, 0 - min q 0, 0⟩ : Position)) s
        = some ⟨s, 0 - min q 0, 0⟩ :=
      lookupPos_setPos_self _ _ _ hmemA
    have hndB : (keys (setPos (setPos (p.positions ++ [(s, (⟨s, 0, 0⟩ : Position))]) s
        (⟨s, 0 - min q 0, 0⟩ : Position)) s (⟨s, 0 - min q 0, 0⟩ : Position))).Nodup := by
      rw [keys_setPos]; exact hndA
    simp only [Portfolio.sell, Portfolio.get_position, hlk]
    by_cases hz : (0 : ℚ) - min q 0 = 0
    · rw [if_pos hz]
      rw [total_value_eq_sum, total_value_eq_sum]
      simp only [Portfolio.remove_position]
      rw [sum_map_filter_ne (contrib L) _ s _ hndB h2,
        sum_map_setPos (contrib L) _ s _ _ hndA h1,
        sum_map_setPos (contrib L) _ s _ _ hnd1 hlk1,
        List.map_append, List.sum_append]
      simp only [List.map_cons, List.map_nil, List.sum_cons, List.sum_nil, add_zero,
        contrib_at L s pr hL]
      have hmin : min q 0 = 0 := by linarith [hz]
      rw [hmin]
      ring
    · rw [if_neg hz]
      rw [total_value_eq_sum, total_value_eq_sum]
      rw [sum_map_setPos (contrib L) _ s _ _ hnd1 hlk1,
        List.map_append, List.sum_append]
      simp only [List.map_cons, List.map_nil, List.sum_cons, List.sum_nil, add_zero,
        contrib_at L s pr hL]
      ring
  · have hmem : s ∈ keys p.positions := mem_keys_of_lookup hlk
    simp only [Portfolio.sell, Portfolio.get_position, hlk]
    by_cases hz : pos.quantity - min q pos.quantity = 0
    · rw [if_pos hz]
      rw [total_value_eq_sum, total_value_eq_sum]
      simp only [Portfolio.remove_position]
      have hnd1 : (keys (setPos p.positions s
          { pos with quantity := pos.quantity - min q pos.quantity })).Nodup := by
        rw [keys_setPos]; exact hWF
      have h1 : lookupPos (setPos p.positions s
            { pos with quantity := pos.quantity - min q pos.quantity }) s
          = some { pos with quantity := pos.quantity - min q pos.quantity } :=
        lookupPos_setPos_self _ _ _ hmem
      have h2 : lookupPos (setPos (setPos p.positions s
            { pos with quantity := pos.quantity - min q pos.quantity }) s
            { pos with quantity := pos.quantity - min q pos.quantity, avg_price := 0 }) s
          = some { pos with quantity := pos.quantity - min q pos.quantity, avg_price := 0 } :=
        lookupPos_setPos_self _ _ _ (by rw [keys_setPos]; exact hmem)
      have hnd2 : (keys (setPos (setPos p.positions s
            { pos with quantity := pos.quantity - min q pos.quantity }) s
            { pos with quantity := pos.quantity - min q pos.quantity, avg_price := 0 })).Nodup := by
        rw [keys_setPos, keys_setPos]; exact hWF
      rw [sum_map_filter_ne (contrib L) _ s _ hnd2 h2,
        sum_map_setPos (contrib L) _ s _ _ hnd1 h1,
        sum_map_setPos (contrib L) p.positions s _ _ hWF hlk,
        contrib_at L s pr hL, contrib_at L s pr hL, contrib_at L s pr hL]
      have hq2 : min q pos.quantity = pos.quantity := by linarith [hz]
      simp only [hq2]
      ring
    · rw [if_neg hz]
      rw [total_value_eq_sum, total_value_eq_sum]
      rw [sum_map_setPos (contrib L) p.positions s _ _ hWF hlk,
        contrib_at L s pr hL, contrib_at L s pr hL]
      ring

theorem buy_total_value (p : Portfolio) (s : String) (q pr : ℚ)
    (L : String → Option ℚ)
    (hWF : (keys p.positions).Nodup) (hL : L s = some pr) :
    (p.buy s q pr).1.total_value L = p.total_value L := by
  by_cases hq : q ≤ 0
  · simp [Portfolio.buy, hq]
  · by_cases hc : p.cash < q * pr
    · simp [Portfolio.buy, hq, hc]
    · rcases hlk : lookupPos p.positions s with _ | pos
      · have hnot : s ∉ keys p.positions := (lookupPos_eq_none _ _).mp hlk
        have hnd1 : (keys (p.positions ++ [(s, (⟨s, 0, 0⟩ : Position))])).Nodup := by
          rw [keys_append]
          refine hWF.append (List.nodup_singleton s) ?_
          intro a ha hb
          rw [show keys [(s, (⟨s, 0, 0⟩ : Position))] = [s] from rfl,
            List.mem_singleton] at hb
          subst hb
          exact hnot ha
        have hlk1 : lookupPos (p.positions ++ [(s, (⟨s, 0, 0⟩ : Position))]) s
            = some ⟨s, 0, 0⟩ := by
          rw [lookupPos_append_of_not_mem _ _ _ hnot, lookupPos, if_pos rfl]
        simp only [Portfolio.buy, if_neg hq, if_neg hc, Portfolio.get_position, hlk]
        rw [total_value_eq_sum, total_value_eq_sum]
        rw [sum_map_setPos (contrib L) _ s _ _ hnd1 hlk1,
          List.map_append, List.sum_append]
        simp only [List.map_cons, List.map_nil, List.sum_cons, List.sum_nil, add_zero,
          contrib_at L s pr hL]
        ring
      · simp only [Portfolio.buy, if_neg hq, if_neg hc, Portfolio.get_position, hlk]
        rw [total_value_eq_sum, total_value_eq_sum]
        rw [sum_map_setPos (contrib L) p.positions s _ _ hWF hlk,
          contrib_at L s pr hL, contrib_at L s pr hL]
        ring

/-! ### Key-set preservation -/

theorem get_position_nodup (p : Portfolio) (s : String)
    (hWF : (keys p.positions).Nodup) : (keys (p.get_position s).2.positions).Nodup := by
  rcases hlk : lookupPos p.positions s with _ | pos
  · have hnot : s ∉ keys p.positions := (lookupPos_eq_none _ _).mp hlk
    simp only [Portfolio.get_position, hlk]
    rw [keys_append]
    refine hWF.append (List.nodup_singleton s) ?_
    intro a ha hb
    rw [show keys [(s, (⟨s, 0, 0⟩ : Position))] = [s] from rfl, List.mem_singleton] at hb
    subst hb
    exact hnot ha
  · simp only [Portfolio.get_position, hlk]
    exact hWF

theorem sell_nodup (p : Portfolio) (s : String) (q pr : ℚ)
    (hWF : (keys p.positions).Nodup) : (keys (p.sell s q pr).positions).Nodup := by
  have h1 : (keys (p.get_position s).2.positions).Nodup := get_position_nodup p s hWF
  rcases hlk : lookupPos p.positions s with _ | pos <;>
    simp only [Portfolio.sell, Portfolio.get_position, hlk] at h1 ⊢ <;>
    split <;>
    simp only [Portfolio.remove_position] <;>
    first
      | exact nodup_keys_filter _ _ (by rw [keys_setPos, keys_setPos]; exact h1)
      | (rw [keys_setPos]; exact h1)

theorem buy_nodup (p : Portfolio) (s : String) (q pr : ℚ)
    (hWF : (keys p.positions).Nodup) : (keys (p.buy s q pr).1.positions).Nodup := by
  have h1 : (keys (p.get_position s).2.positions).Nodup := get_position_nodup p s hWF
  by_cases hq : q ≤ 0
  · simp only [Portfolio.buy, if_pos hq]
    exact hWF
  · by_cases hc : p.cash < q * pr
    · simp only [Portfolio.buy, if_neg hq, if_pos hc]
      exact hWF
    · rcases hlk : lookupPos p.positions s with _ | pos <;>
        simp only [Portfolio.buy, if_neg hq, if_neg hc, Portfolio.get_position, hlk] at h1 ⊢ <;>
        (rw [keys_setPos]; exact h1)

/-! ### Claim C1 -/

/-- C1: value conservation.  For every sequence of `Portfolio.buy` and
`Portfolio.sell` calls in which each call executes at the price the
valuation lookup quotes for its symbol (so every traded symbol is priced),
the total value `cash + Σ quantity × price` after the sequence equals the
total value before it, in exact arithmetic. -/
theorem C1_value_conservation (L : String → Option ℚ) (ops : List TradeOp)
    (p : Portfolio) (hWF : (keys p.positions).Nodup)
    (hpriced : ∀ op ∈ ops, L op.symbol = some op.price) :
    (applyTrades p ops).total_value L = p.total_value L := by
  induction ops generalizing p with
  | nil => rfl
  | cons op rest ih =>
      have hop := hpriced op (List.mem_cons_self _ _)
      have hrest : ∀ o ∈ rest, L o.symbol = some o.price := fun o ho =>
        hpriced o (List.mem_cons_of_mem _ ho)
      rw [applyTrades, List.foldl_cons]
      cases op with
      | buy s q pr =>
          rw [show applyTrade p (TradeOp.buy s q pr) = (p.buy s q pr).1 from rfl,
            show rest.foldl applyTrade (p.buy s q pr).1
              = applyTrades (p.buy s q pr).1 rest from rfl,
            ih (p.buy s q pr).1 (buy_nodup p s q pr hWF) hrest]
          exact buy_total_value p s q pr L hWF
            (by simpa [TradeOp.symbol, TradeOp.price] using hop)
      | sell s q pr =>
          rw [show applyTrade p (TradeOp.sell s q pr) = p.sell s q pr from rfl,
            show rest.foldl applyTrade (p.sell s q pr)
              = applyTrades (p.sell s q pr) rest from rfl,
            ih (p.sell s q pr) (sell_nodup p s q pr hWF) hrest]
          exact sell_total_value p s q pr L hWF
            (by simpa [TradeOp.symbol, TradeOp.price] using hop)

/-- Witness for C1 at a concrete portfolio, lookup and trade sequence. -/
theorem C1_value_conservation_witness :
    (applyTrades samplePortfolio
        [TradeOp.buy "A" 3 10, TradeOp.sell "A" 4 10]).total_value sampleLookup
      = samplePortfolio.total_value sampleLookup :=
  C1_value_conservation sampleLookup [TradeOp.buy "A" 3 10, TradeOp.sell "A" 4 10]
    samplePortfolio (by decide) (by decide)

/-! ### Sanity invariant: non-negative cash and quantities -/

theorem mem_of_mem_setPos {l : List (String × Position)} {s : String} {pos : Position}
    {kv' : String × Position} (h : kv' ∈ setPos l s pos) : kv' ∈ l ∨ kv'.2 = pos := by
  rw [setPos] at h
  rcases List.mem_map.mp h with ⟨kv, hkv, heq⟩
  by_cases hk : kv.1 = s
  · rw [if_pos hk] at heq
    right
    rw [← heq]
  · rw [if_neg hk] at heq
    left
    rw [← heq]
    exact hkv

theorem get_position_fst_nonneg (p : Portfolio) (s : String)
    (hqty : ∀ kv ∈ p.positions, 0 ≤ kv.2.quantity) :
    0 ≤ (p.get_position s).1.quantity := by
  rcases hlk : lookupPos p.positions s with _ | pos
  · simp only [Portfolio.get_position, hlk]
    exact le_refl 0
  · simp only [Portfolio.get_position, hlk]
    exact hqty (s, pos) (lookup_mem hlk)

theorem get_position_snd_nonneg (p : Portfolio) (s : String)
    (hqty : ∀ kv ∈ p.positions, 0 ≤ kv.2.quantity) :
    ∀ kv ∈ (p.get_position s).2.positions, 0 ≤ kv.2.quantity := by
  rcases hlk : lookupPos p.positions s with _ | pos
  · simp only [Portfolio.get_position, hlk]
    intro kv hkv
    rcases List.mem_append.mp hkv with h | h
    · exact hqty kv h
    · rw [List.mem_singleton] at h
      subst h
      exact le_refl 0
  · simp only [Portfolio.get_position, hlk]
    exact hqty

theorem get_position_cash (p : Portfolio) (s : String) :
    (p.get_position s).2.cash = p.cash := by
  rcases hlk : lookupPos p.positions s with _ | pos <;>
    simp only [Portfolio.get_position, hlk]

theorem sell_sane (p : Portfolio) (s : String) (q pr : ℚ)
    (hq : 0 ≤ q) (hpr : 0 ≤ pr) (hp : p.Sane) : (p.sell s q pr).Sane := by
  obtain ⟨hc, hqty⟩ := hp
  have hfst : 0 ≤ (p.get_position s).1.quantity := get_position_fst_nonneg p s hqty
  have hsnd := get_position_snd_nonneg p s hqty
  have hcash := get_position_cash p s
  have hmin : 0 ≤ min q (p.get_position s).1.quantity := le_min hq hfst
  have hnewQty : 0 ≤ (p.get_position s).1.quantity - min q (p.get_position s).1.quantity :=
    sub_nonneg.mpr (min_le_right _ _)
  constructor
  · show 0 ≤ (p.sell s q pr).cash
    simp only [Portfolio.sell]
    split
    · simp only [Portfolio.remove_position]
      have : 0 ≤ min q (p.get_position s).1.quantity * pr := mul_nonneg hmin hpr
      rw [hcash]
      linarith
    · have : 0 ≤ min q (p.get_position s).1.quantity * pr := mul_nonneg hmin hpr
      rw [hcash]
      linarith
  · show ∀ kv ∈ (p.sell s q pr).positions, 0 ≤ kv.2.quantity
    intro kv hkv
    simp only [Portfolio.sell] at hkv
    split at hkv
    · simp only [Portfolio.remove_position] at hkv
      have hkv2 := (List.mem_filter.mp hkv).1
      rcases mem_of_mem_setPos hkv2 with hkv3 | hkv3
      · rcases mem_of_mem_setPos hkv3 with hkv4 | hkv4
        · exact hsnd kv hkv4
        · rw [hkv4]
          exact hnewQty
      · rw [hkv3]
        exact hnewQty
    · rcases mem_of_mem_setPos hkv with hkv3 | hkv3
      · exact hsnd kv hkv3
      · rw [hkv3]
        exact hnewQty

theorem buy_sane (p : Portfolio) (s : String) (q pr : ℚ) (hp : p.Sane) :
    (p.buy s q pr).1.Sane := by
  obtain ⟨hc, hqty⟩ := hp
  by_cases hq : q ≤ 0
  · simp only [Portfolio.buy, if_pos hq]
    exact ⟨hc, hqty⟩
  · by_cases hcost : p.cash < q * pr
    · simp only [Portfolio.buy, if_neg hq, if_pos hcost]
      exact ⟨hc, hqty⟩
    · have hfst := get_position_fst_nonneg p s hqty
      have hsnd := get_position_snd_nonneg p s hqty
      have hcash := get_position_cash p s
      constructor
      · show 0 ≤ (p.buy s q pr).1.cash
        simp only [Portfolio.buy, if_neg hq, if_neg hcost]
        rw [hcash]
        linarith [not_lt.mp hcost]
      · show ∀ kv ∈ (p.buy s q pr).1.positions, 0 ≤ kv.2.quantity
        simp only [Portfolio.buy, if_neg hq, if_neg hcost]
        intro kv hkv
        rcases mem_of_mem_setPos hkv with h | h
        · exact hsnd kv h
        · rw [h]
          show 0 ≤ (p.get_position s).1.quantity + q
          have hq0 : 0 < q := not_le.mp hq
          linarith [hfst]

theorem get_position_sane (p : Portfolio) (s : String) (hp : p.Sane) :
    (p.get_position s).2.Sane :=
  ⟨by rw [show (p.get_position s).2.cash = p.cash from get_position_cash p s]; exact hp.1,
    get_position_snd_nonneg p s hp.2⟩

theorem remove_position_sane (p : Portfolio) (s : String) (hp : p.Sane) :
    (p.remove_position s).Sane :=
  ⟨hp.1, fun kv hkv => hp.2 kv (List.mem_of_mem_filter hkv)⟩

theorem applyOp_sane (p : Portfolio) (op : PortfolioOp) (hp : p.Sane)
    (hpr : op.priceNonneg) (hsq : op.sellQtyNonneg) : (applyOp p op).Sane := by
  cases op with
  | buy s q pr => exact buy_sane p s q pr hp
  | sell s q pr => exact sell_sane p s q pr hsq hpr hp
  | get_position s => exact get_position_sane p s hp
  | remove_position s => exact remove_position_sane p s hp

theorem applyOps_sane : ∀ (ops : List PortfolioOp) (p : Portfolio), p.Sane →
    (∀ op ∈ ops, op.priceNonneg ∧ op.sellQtyNonneg) → (applyOps p ops).Sane := by
  intro ops
  induction ops with
  | nil => intro p hp _; exact hp
  | cons op rest ih =>
      intro p hp hops
      rw [applyOps, List.foldl_cons]
      exact ih (applyOp p op)
        (applyOp_sane p op hp (hops op (List.mem_cons_self _ _)).1
          (hops op (List.mem_cons_self _ _)).2)
        fun o ho => hops o (List.mem_cons_of_mem _ ho)

/-! ### Claim C2 -/

/-- C2 counterexample: starting from a freshly constructed portfolio with
non-negative cash, a single public operation with a non-negative price
argument — a sell with negative quantity — drives the cash balance below
zero, so the claim as stated is false. -/
theorem C2_counterexample :
    (PortfolioOp.sell "A" (-10) 5).priceNonneg ∧
    (applyOps ⟨0, []⟩ [PortfolioOp.sell "A" (-10) 5]).cash < 0 := by
  constructor
  · show (0 : ℚ) ≤ 5
    norm_num
  · simp only [applyOps, List.foldl_cons, List.foldl_nil, applyOp, Portfolio.sell,
      Portfolio.get_position, lookupPos, Portfolio.remove_position, setPos]
    norm_num [min_def]

/-- C2 (amended): no negative cash.  For every state reachable from a
freshly constructed portfolio with non-negative initial cash by public
operations whose price arguments are non-negative *and whose sell
quantities are non-negative*, the cash balance stays non-negative.  (The
unamended claim fails because `sell` does not guard negative quantities;
see the counterexample and C10.) -/
theorem C2_no_negative_cash (c : ℚ) (ops : List PortfolioOp) (hc : 0 ≤ c)
    (hops : ∀ op ∈ ops, op.priceNonneg ∧ op.sellQtyNonneg) :
    0 ≤ (applyOps ⟨c, []⟩ ops).cash :=
  (applyOps_sane ops ⟨c, []⟩ ⟨hc, by intro kv hkv; simp at hkv⟩ hops).1

/-- Witness for C2 (amended) at a concrete operation sequence. -/
theorem C2_no_negative_cash_witness :
    0 ≤ (applyOps ⟨100, []⟩
      [PortfolioOp.buy "A" 3 10, PortfolioOp.sell "A" 5 10,
        PortfolioOp.get_position "B", PortfolioOp.remove_position "B"]).cash :=
  C2_no_negative_cash 100
    [PortfolioOp.buy "A" 3 10, PortfolioOp.sell "A" 5 10,
      PortfolioOp.get_position "B", PortfolioOp.remove_position "B"]
    (by norm_num)
    (by
      intro op hop
      fin_cases hop <;>
        exact ⟨by norm_num [PortfolioOp.priceNonneg], by norm_num [PortfolioOp.sellQtyNonneg]⟩)

/-! ### Claim C3 -/

/-- C3: buy error contract and atomicity.  `buy` is a silent no-op for a
non-positive quantity; for a positive quantity it fails with the
insufficient-funds error exactly when the cost strictly exceeds cash (a
buy whose cost equals cash succeeds and leaves cash at zero); and whenever
it fails, the portfolio — cash and the whole positions mapping — is
returned completely unchanged. -/
theorem C3_buy_contract (p : Portfolio) (s : String) (q pr : ℚ) :
    (q ≤ 0 → p.buy s q pr = (p, none)) ∧
    (0 < q → ((p.buy s q pr).2 = some BuyError.insufficient_cash ↔ p.cash < q * pr)) ∧
    (0 < q → q * pr = p.cash → (p.buy s q pr).2 = none ∧ (p.buy s q pr).1.cash = 0) ∧
    ((p.buy s q pr).2.isSome = true → (p.buy s q pr).1 = p) := by
  refine ⟨?_, ?_, ?_, ?_⟩
  · intro hq
    simp [Portfolio.buy, hq]
  · intro hq
    by_cases hc : p.cash < q * pr
    · simp [Portfolio.buy, not_le.mpr hq, hc]
    · simp [Portfolio.buy, not_le.mpr hq, hc]
  · intro hq heq
    have hc : ¬p.cash < q * pr := by rw [heq]; exact lt_irrefl _
    have hcash := get_position_cash p s
    constructor
    · simp [Portfolio.buy, not_le.mpr hq, hc]
    · simp [Portfolio.buy, not_le.mpr hq, hc, hcash]
      linarith
  · intro hsome
    by_cases hq : q ≤ 0
    · simp [Portfolio.buy, hq] at hsome
    · by_cases hc : p.cash < q * pr
      · simp [Portfolio.buy, hq, hc]
      · simp [Portfolio.buy, hq, hc] at hsome

/-- Witness for C3 at concrete inputs: a zero-quantity no-op, an
unaffordable buy that fails, an exact-cost buy that succeeds with zero
cash left, and the failed buy's unchanged state. -/
theorem C3_buy_contract_witness :
    samplePortfolio.buy "A" 0 10 = (samplePortfolio, none) ∧
    ((samplePortfolio.buy "A" 20 10).2 = some BuyError.insufficient_cash ↔
      samplePortfolio.cash < 20 * 10) ∧
    ((samplePortfolio.buy "A" 10 10).2 = none ∧
      (samplePortfolio.buy "A" 10 10).1.cash = 0) ∧
    ((samplePortfolio.buy "A" 20 10).2.isSome = true →
      (samplePortfolio.buy "A" 20 10).1 = samplePortfolio) :=
  ⟨(C3_buy_contract samplePortfolio "A" 0 10).1 (by norm_num),
    (C3_buy_contract samplePortfolio "A" 20 10).2.1 (by norm_num),
    (C3_buy_contract samplePortfolio "A" 10 10).2.2.1 (by norm_num)
      (by norm_num [samplePortfolio]),
    (C3_buy_contract samplePortfolio "A" 20 10).2.2.2⟩

/-! ### Claim C4 -/

theorem setPos_append (l l2 : List (String × Position)) (s : String) (pos : Position) :
    setPos (l ++ l2) s pos = setPos l s pos ++ setPos l2 s pos :=
  List.map_append _ _ _

theorem lookupPos_filter_ne_self (l : List (String × Position)) (s : String) :
    lookupPos (l.filter fun kv => kv.1 ≠ s) s = none := by
  rw [lookupPos_eq_none]
  intro hmem
  rcases List.mem_map.mp hmem with ⟨kv, hkv, hfst⟩
  have := (List.mem_filter.mp hkv).2
  rw [decide_eq_true_iff] at this
  exact this hfst

theorem sell_unheld (p : Portfolio) (s : String) (q pr : ℚ) (hq : 0 ≤ q)
    (hlk : lookupPos p.positions s = none) : p.sell s q pr = p := by
  have hnot : s ∉ keys p.positions := (lookupPos_eq_none _ _).mp hlk
  have hmin : min q (0 : ℚ) = 0 := min_eq_right hq
  have hcond : (0 : ℚ) - min q 0 = 0 := by rw [hmin]; ring
  simp only [Portfolio.sell, Portfolio.get_position, hlk]
  rw [if_pos hcond]
  simp only [Portfolio.remove_position]
  rw [setPos_append, setPos_of_not_mem _ _ _ hnot, setPos_append,
    setPos_of_not_mem _ _ _ hnot]
  simp only [setPos, List.map_cons, List.map_nil, if_pos rfl, List.filter_append]
  rw [filter_ne_of_not_mem _ _ hnot, hmin]
  simp

/-- C4: sell clamp.  For a non-negative requested quantity, the quantity
actually sold is `min(requested, held)`: the proceeds credited to cash are
computed from the clamped quantity; the held quantity drops by exactly the
clamped quantity; selling more than the held quantity closes the position
(it is removed from the mapping); and selling a symbol not in the mapping
is a complete no-op — `sell` never fails. -/
theorem C4_sell_clamp (p : Portfolio) (s : String) (q pr : ℚ) (hq : 0 ≤ q) :
    ((p.sell s q pr).cash = p.cash + min q (p.heldQty s) * pr) ∧
    ((p.sell s q pr).heldQty s = p.heldQty s - min q (p.heldQty s)) ∧
    (p.heldQty s < q → lookupPos (p.sell s q pr).positions s = none) ∧
    (lookupPos p.positions s = none → p.sell s q pr = p) := by
  rcases hlk : lookupPos p.positions s with _ | pos
  · have hnoop := sell_unheld p s q pr hq hlk
    have hheld : p.heldQty s = 0 := by rw [Portfolio.heldQty, qtyAt, hlk]
    refine ⟨?_, ?_, ?_, fun _ => hnoop⟩
    · rw [hnoop, hheld, min_eq_right hq]
      ring
    · rw [hnoop, hheld, min_eq_right hq]
      ring
    · intro _
      rw [hnoop]
      exact hlk
  · have hheld : p.heldQty s = pos.quantity := by rw [Portfolio.heldQty, qtyAt, hlk]
    have hmem : s ∈ keys p.positions := mem_keys_of_lookup hlk
    refine ⟨?_, ?_, ?_, ?_⟩
    · rw [hheld]
      simp only [Portfolio.sell, Portfolio.get_position, hlk]
      split <;> rfl
    · by_cases hz : pos.quantity - min q pos.quantity = 0
      · rw [hheld, Portfolio.heldQty, qtyAt]
        simp only [Portfolio.sell, Portfolio.get_position, hlk]
        rw [if_pos hz]
        simp only [Portfolio.remove_position]
        rw [lookupPos_filter_ne_self]
        exact hz.symm
      · rw [hheld, Portfolio.heldQty, qtyAt]
        simp only [Portfolio.sell, Portfolio.get_position, hlk]
        rw [if_neg hz, lookupPos_setPos_self _ _ _ hmem]
    · intro hlt
      rw [hheld] at hlt
      have hz : pos.quantity - min q pos.quantity = 0 := by
        rw [min_eq_right (le_of_lt hlt)]
        ring
      simp only [Portfolio.sell, Portfolio.get_position, hlk]
      rw [if_pos hz]
      simp only [Portfolio.remove_position]
      exact lookupPos_filter_ne_self _ _
    · intro hnone
      exact Option.noConfusion hnone

/-- Witness for C4 at concrete inputs: selling 4 from a position holding 2
credits `min 4 2 × 10 = 20`, empties the position and removes it; selling
from an empty portfolio is a no-op. -/
theorem C4_sell_clamp_witness :
    ((samplePortfolio.sell "A" 4 10).cash
        = samplePortfolio.cash + min 4 (samplePortfolio.heldQty "A") * 10) ∧
    ((samplePortfolio.sell "A" 4 10).heldQty "A"
        = samplePortfolio.heldQty "A" - min 4 (samplePortfolio.heldQty "A")) ∧
    (lookupPos (samplePortfolio.sell "A" 4 10).positions "A" = none) ∧
    ((Portfolio.mk 7 []).sell "B" 4 10 = Portfolio.mk 7 []) :=
  ⟨(C4_sell_clamp samplePortfolio "A" 4 10 (by norm_num)).1,
    (C4_sell_clamp samplePortfolio "A" 4 10 (by norm_num)).2.1,
    (C4_sell_clamp samplePortfolio "A" 4 10 (by norm_num)).2.2.1
      (by norm_num [samplePortfolio, Portfolio.heldQty, qtyAt, lookupPos]),
    (C4_sell_clamp (Portfolio.mk 7 []) "B" 4 10 (by norm_num)).2.2.2 rfl⟩

/-! ### Claim C10 -/

/-- C10: sell does not guard negative quantities.  For `sell` with a
negative quantity on a symbol whose held quantity is non-negative, the
clamp `min(q, held)` selects `q` itself, so the held quantity *increases*
by `-q` (a position is created at quantity `-q` and zero average cost if
the symbol was unheld) and cash changes by `q × price`, i.e. decreases for
a positive price. -/
theorem C10_sell_negative (p : Portfolio) (s : String) (q pr : ℚ)
    (hq : q < 0) (hh : 0 ≤ p.heldQty s) :
    ((p.sell s q pr).heldQty s = p.heldQty s - q) ∧
    ((p.sell s q pr).cash = p.cash + q * pr) ∧
    (lookupPos p.positions s = none →
      lookupPos (p.sell s q pr).positions s = some ⟨s, -q, 0⟩) := by
  rcases hlk : lookupPos p.positions s with _ | pos
  · have hheld : p.heldQty s = 0 := by rw [Portfolio.heldQty, qtyAt, hlk]
    have hnot : s ∉ keys p.positions := (lookupPos_eq_none _ _).mp hlk
    have hmin : min q (0 : ℚ) = q := min_eq_left (le_of_lt hq)
    have hcond : ¬((0 : ℚ) - min q 0 = 0) := by
      rw [hmin]
      intro h
      linarith
    have hlk1 : lookupPos (p.positions ++ [(s, (⟨s, 0, 0⟩ : Position))]) s
        = some ⟨s, 0, 0⟩ := by
      rw [lookupPos_append_of_not_mem _ _ _ hnot, lookupPos, if_pos rfl]
    have hmem1 : s ∈ keys (p.positions ++ [(s, (⟨s, 0, 0⟩ : Position))]) :=
      mem_keys_of_lookup hlk1
    refine ⟨?_, ?_, fun _ => ?_⟩
    · rw [hheld, Portfolio.heldQty, qtyAt]
      simp only [Portfolio.sell, Portfolio.get_position, hlk]
      rw [if_neg hcond, lookupPos_setPos_self _ _ _ hmem1]
      show (0 : ℚ) - min q 0 = 0 - q
      rw [hmin]
    · simp only [Portfolio.sell, Portfolio.get_position, hlk]
      rw [if_neg hcond]
      show p.cash + min q 0 * pr = p.cash + q * pr
      rw [hmin]
    · simp only [Portfolio.sell, Portfolio.get_position, hlk]
      rw [if_neg hcond, lookupPos_setPos_self _ _ _ hmem1]
      rw [show (0 : ℚ) - min q 0 = -q by rw [hmin]; ring]
  · have hheld : p.heldQty s = pos.quantity := by rw [Portfolio.heldQty, qtyAt, hlk]
    have hposq : 0 ≤ pos.quantity := hheld ▸ hh
    have hmin : min q pos.quantity = q := min_eq_left (le_of_lt (lt_of_lt_of_le hq hposq))
    have hcond : ¬(pos.quantity - min q pos.quantity = 0) := by
      rw [hmin]
      intro h
      linarith
    have hmem : s ∈ keys p.positions := mem_keys_of_lookup hlk
    refine ⟨?_, ?_, fun hnone => ?_⟩
    · rw [hheld, Portfolio.heldQty, qtyAt]
      simp only [Portfolio.sell, Portfolio.get_position, hlk]
      rw [if_neg hcond, lookupPos_setPos_self _ _ _ hmem]
      show pos.quantity - min q pos.quantity = pos.quantity - q
      rw [hmin]
    · simp only [Portfolio.sell, Portfolio.get_position, hlk]
      rw [if_neg hcond]
      show p.cash + min q pos.quantity * pr = p.cash + q * pr
      rw [hmin]
    · exact Option.noConfusion hnone

/-- Witness for C10 at concrete inputs: selling −10 of an unheld symbol at
price 5 creates a 10-share position and debits 50 from cash. -/
theorem C10_sell_negative_witness :
    (((Portfolio.mk 100 []).sell "A" (-10) 5).heldQty "A"
        = (Portfolio.mk 100 []).heldQty "A" - (-10)) ∧
    (((Portfolio.mk 100 []).sell "A" (-10) 5).cash
        = (Portfolio.mk 100 []).cash + (-10) * 5) ∧
    (lookupPos ((Portfolio.mk 100 []).sell "A" (-10) 5).positions "A"
        = some ⟨"A", -(-10), 0⟩) :=
  ⟨(C10_sell_negative (Portfolio.mk 100 []) "A" (-10) 5 (by norm_num)
      (by norm_num [Portfolio.heldQty, qtyAt, lookupPos])).1,
    (C10_sell_negative (Portfolio.mk 100 []) "A" (-10) 5 (by norm_num)
      (by norm_num [Portfolio.heldQty, qtyAt, lookupPos])).2.1,
    (C10_sell_negative (Portfolio.mk 100 []) "A" (-10) 5 (by norm_num)
      (by norm_num [Portfolio.heldQty, qtyAt, lookupPos])).2.2 rfl⟩

/-! ### Claim C9 -/

/-- C9: idempotent zero trade.  During order execution, an order whose
target value (`total_value × target_percent`) exactly equals its current
value (`held quantity × close price`) yields a computed trade quantity of
zero, so neither `buy` nor `sell` runs, no error is raised, and the
portfolio is returned unchanged — in exact arithmetic, at a non-zero
price (the source's `value_diff / price` raises `ZeroDivisionError` at a
zero close price, which the embedding models separately). -/
theorem C9_idempotent_zero_trade (close_prices : String → Option ℚ)
    (total_value : ℚ) (p : Portfolio) (o : Order) (pr : ℚ)
    (hpr : close_prices o.symbol = some pr) (hpr0 : pr ≠ 0)
    (hz : total_value * o.target_percent = p.heldQty o.symbol * pr) :
    processOrder close_prices total_value p o = (p, none) := by
  simp only [processOrder, hpr]
  rw [if_neg hpr0]
  have hcur : (match lookupPos p.positions o.symbol with
      | some pos => pos.quantity * pr
      | none => 0) = p.heldQty o.symbol * pr := by
    rw [Portfolio.heldQty, qtyAt]
    rcases lookupPos p.positions o.symbol with _ | pos
    · simp
    · rfl
  rw [hcur, hz, sub_self, zero_div]
  simp [lt_irrefl]

/-- Witness for C9 at a concrete order: target 20% of a total value of 100
against 2 shares held at price 10. -/
theorem C9_idempotent_zero_trade_witness :
    processOrder sampleLookup 100 samplePortfolio ⟨"A", 1 / 5⟩
      = (samplePortfolio, none) :=
  C9_idempotent_zero_trade sampleLookup 100 samplePortfolio ⟨"A", 1 / 5⟩ 10
    (by decide) (by norm_num)
    (by norm_num [samplePortfolio, Portfolio.heldQty, qtyAt, lookupPos])

/-! ### Claim C7 -/

theorem contrib_open_eq (dp : AkshareDataProvider) (n : ℕ) (p1 : Portfolio) :
    ∀ kv ∈ p1.positions,
      contrib (dp.get_open_prices (keys p1.positions) n) kv
        = match dp.get_bar kv.1 n with
          | none => 0
          | some bar => kv.2.quantity * bar.open_price := by
  intro kv hkv
  have hmem : kv.1 ∈ keys p1.positions := List.mem_map_of_mem Prod.fst hkv
  simp only [contrib, AkshareDataProvider.get_open_prices, if_pos hmem]
  rcases dp.get_bar kv.1 n with _ | bar
  · rfl
  · simp [Position.market_value]

/-- C7: frozen, non-mutating mark-to-market.  When order execution
completes, one iteration of the date loop hands the *post-execution*
portfolio on unchanged (the valuation step mutates neither cash nor any
position), and the recorded account value is its cash plus quantity ×
next-date opening price summed over exactly the held symbols that have a
bar on the next date — held symbols without one contribute zero instead of
being liquidated.  When execution aborts, the error carries that same
state and no valuation is recorded. -/
theorem C7_mark_to_market (dp : AkshareDataProvider) (strategy : Strategy)
    (p : Portfolio) (c n : ℕ) :
    runStep dp strategy p c n
      = match execute_orders dp c (strategy c p) p with
        | (p1, some _) => Except.error p1
        | (p1, none) =>
            Except.ok (p1, p1.cash + (p1.positions.map fun kv =>
                match dp.get_bar kv.1 n with
                | none => 0
                | some bar => kv.2.quantity * bar.open_price).sum) := by
  rcases hex : execute_orders dp c (strategy c p) p with ⟨p1, e⟩
  cases e with
  | none =>
      simp only [runStep, hex]
      rw [markToMarket_eq_sum, List.map_congr_left (contrib_open_eq dp n p1)]
  | some err =>
      simp only [runStep, hex]

/-! ### Claim C5 -/

theorem runLoop_ok_shape (dp : AkshareDataProvider) (strategy : Strategy) :
    ∀ (steps : List (ℕ × ℕ)) (p pf : Portfolio) (r : List ℕ × List ℚ),
      runLoop dp strategy steps p = Except.ok (pf, r) →
      r.1 = steps.map Prod.snd ∧ r.2.length = steps.length := by
  intro steps
  induction steps with
  | nil =>
      intro p pf r h
      simp only [runLoop] at h
      have h2 := Except.ok.inj h
      injection h2 with ha hb
      subst hb
      exact ⟨rfl, rfl⟩
  | cons pr2 rest ih =>
      intro p pf r h
      rcases pr2 with ⟨c, n⟩
      rcases hstep : runStep dp strategy p c n with p1 | ⟨p1, v⟩
      · simp only [runLoop, hstep] at h
        exact Except.noConfusion h
      · rcases hrec : runLoop dp strategy rest p1 with pf2 | ⟨pf2, r2⟩
        · simp only [runLoop, hstep, hrec] at h
          exact Except.noConfusion h
        · simp only [runLoop, hstep, hrec] at h
          have h2 := Except.ok.inj h
          injection h2 with ha hb
          subst hb
          obtain ⟨ih1, ih2⟩ := ih p1 pf2 r2 hrec
          constructor
          · show n :: r2.1 = n :: rest.map Prod.snd
            rw [ih1]
          · show (v :: r2.2).length = rest.length + 1
            rw [List.length_cons, ih2]

theorem processOrder_no_zero (close_prices : String → Option ℚ) (tv : ℚ)
    (p : Portfolio) (o : Order)
    (hnz : ∀ pr : ℚ, close_prices o.symbol = some pr → pr ≠ 0) :
    (processOrder close_prices tv p o).2 = none := by
  rcases hpr : close_prices o.symbol with _ | pr
  · simp only [processOrder, hpr]
  · simp only [processOrder, hpr]
    rw [if_neg (hnz pr hpr)]
    split_ifs <;> rfl

theorem processOrdersLoop_no_zero (close_prices : String → Option ℚ) (tv : ℚ)
    (hnz : ∀ (s : String) (pr : ℚ), close_prices s = some pr → pr ≠ 0) :
    ∀ (orders : List Order) (p : Portfolio),
      (processOrdersLoop close_prices tv orders p).2 = none := by
  intro orders
  induction orders with
  | nil => intro p; rfl
  | cons o rest ih =>
      intro p
      have h2 : (processOrder close_prices tv p o).2 = none :=
        processOrder_no_zero close_prices tv p o fun pr h => hnz o.symbol pr h
      have heq : processOrder close_prices tv p o
          = ((processOrder close_prices tv p o).1, none) := by
        rw [← h2]
      simp only [processOrdersLoop]
      rw [heq]
      exact ih (processOrder close_prices tv p o).1

theorem execute_orders_no_zero (dp : AkshareDataProvider) (date : ℕ)
    (orders : List Order) (p : Portfolio)
    (hnz : ∀ (s : String) (d : ℕ) (bar : Bar), dp.get_bar s d = some bar →
      bar.close_price ≠ 0) :
    (execute_orders dp date orders p).2 = none := by
  simp only [execute_orders]
  split
  · rfl
  · apply processOrdersLoop_no_zero
    intro s pr hpr
    simp only [AkshareDataProvider.get_close_prices] at hpr
    by_cases hmem : s ∈ orders.map Order.symbol
    · rw [if_pos hmem] at hpr
      rcases hbar : dp.get_bar s date with _ | bar
      · rw [hbar] at hpr
        exact Option.noConfusion hpr
      · rw [hbar] at hpr
        have hcl : bar.close_price = pr := by simpa using hpr
        rw [← hcl]
        exact hnz s date bar hbar
    · rw [if_neg hmem] at hpr
      exact Option.noConfusion hpr

theorem runLoop_ok_of_no_zero (dp : AkshareDataProvider) (strategy : Strategy)
    (hnz : ∀ (s : String) (d : ℕ) (bar : Bar), dp.get_bar s d = some bar →
      bar.close_price ≠ 0) :
    ∀ (steps : List (ℕ × ℕ)) (p : Portfolio),
      ∃ x, runLoop dp strategy steps p = Except.ok x := by
  intro steps
  induction steps with
  | nil => intro p; exact ⟨(p, ([], [])), rfl⟩
  | cons pr2 rest ih =>
      intro p
      rcases pr2 with ⟨c, n⟩
      have hex : (execute_orders dp c (strategy c p) p).2 = none :=
        execute_orders_no_zero dp c (strategy c p) p hnz
      have hexeq : execute_orders dp c (strategy c p) p
          = ((execute_orders dp c (strategy c p) p).1, none) := by
        rw [← hex]
      have hstep : runStep dp strategy p c n
          = Except.ok ((execute_orders dp c (strategy c p) p).1,
              markToMarket dp n (execute_orders dp c (strategy c p) p).1) := by
        simp only [runStep]
        rw [hexeq]
      obtain ⟨x, hx⟩ := ih (execute_orders dp c (strategy c p) p).1
      rcases x with ⟨pf, r⟩
      refine ⟨(pf, (n :: r.1,
        markToMarket dp n (execute_orders dp c (strategy c p) p).1 :: r.2)), ?_⟩
      simp only [runLoop, hstep, hx]

/-- C5 counterexample: a two-date calendar on which the policy's one order
symbol has a *zero* closing price (`Bar` only requires `close ≥ 0`)
aborts the run with the uncaught `ZeroDivisionError` from
`value_diff / price` — no (n−1)-entry result is produced, refuting the
claim as stated for calendars of `n ≥ 2` dates. -/
theorem C5_counterexample :
    2 ≤ zeroCloseDP.index_dates.length ∧
    run zeroCloseDP zeroCloseStrategy ⟨100, []⟩
      = (⟨100, []⟩, Except.error RunError.zero_division) := by
  constructor
  · norm_num [zeroCloseDP]
  · rfl

/-- C5 (amended): run contract.  `run` fails with the insufficient-data
error exactly when the calendar has fewer than two dates, and then
uniformly — for every strategy and portfolio the result is the untouched
portfolio and that error, with no partial result and no strategy
invocation.  Whenever a result is returned for an `n`-date calendar it has
exactly `n - 1` entries dated by the calendar's tail `d1 … d(n-1)` in
order; and a result *is* returned for every `n ≥ 2` calendar whose served
bars all have non-zero closing prices — the qualification the
counterexample forces, since a zero-close priced order aborts the run
with an uncaught `ZeroDivisionError`. -/
theorem C5_run_contract (dp : AkshareDataProvider) (strategy : Strategy) (p : Portfolio) :
    ((run dp strategy p).2 = Except.error RunError.not_enough_index_data
        ↔ dp.index_dates.length < 2) ∧
    (dp.index_dates.length < 2 → ∀ (strategy2 : Strategy) (p2 : Portfolio),
        run dp strategy2 p2 = (p2, Except.error RunError.not_enough_index_data)) ∧
    (∀ res : BacktestResult, (run dp strategy p).2 = Except.ok res →
        res.dates = dp.index_dates.tail ∧
        res.dates.length = dp.index_dates.length - 1 ∧
        res.values.length = dp.index_dates.length - 1) ∧
    ((∀ (s : String) (d : ℕ) (bar : Bar), dp.get_bar s d = some bar →
        bar.close_price ≠ 0) →
      2 ≤ dp.index_dates.length →
      ∃ res : BacktestResult, (run dp strategy p).2 = Except.ok res) := by
  by_cases h : dp.index_dates.length < 2
  · refine ⟨by simp [run, h], fun _ strategy2 p2 => by simp [run, h],
      fun res hres => ?_, fun _ h2 => absurd h (by omega)⟩
    simp [run, h] at hres
  · have htl : dp.index_dates.tail.length ≤ dp.index_dates.length := by
      rw [List.length_tail]
      exact Nat.sub_le _ _
    refine ⟨?_, fun h2 => absurd h2 h, fun res hres => ?_, fun hnz _ => ?_⟩
    · rcases hloop : runLoop dp strategy (dp.index_dates.zip dp.index_dates.tail) p
        with pf | ⟨pf, r⟩
      · simp [run, h, hloop]
      · simp [run, h, hloop]
    · rcases hloop : runLoop dp strategy (dp.index_dates.zip dp.index_dates.tail) p
        with pf | ⟨pf, r⟩
      · simp [run, h, hloop] at hres
      · simp only [run, if_neg h, hloop] at hres
        obtain rfl : BacktestResult.mk r.1 r.2 = res := Except.ok.inj hres
        obtain ⟨h1, h2⟩ := runLoop_ok_shape dp strategy _ p pf r hloop
        refine ⟨?_, ?_, ?_⟩
        · show r.1 = dp.index_dates.tail
          rw [h1, List.map_snd_zip _ _ htl]
        · show r.1.length = dp.index_dates.length - 1
          rw [h1, List.map_snd_zip _ _ htl, List.length_tail]
        · show r.2.length = dp.index_dates.length - 1
          rw [h2, List.length_zip, List.length_tail]
          exact min_eq_right (Nat.sub_le _ _)
    · obtain ⟨⟨pf, r⟩, hx⟩ := runLoop_ok_of_no_zero dp strategy hnz
        (dp.index_dates.zip dp.index_dates.tail) p
      exact ⟨⟨r.1, r.2⟩, by simp [run, h, hx]⟩

/-- Witness for C5: a two-date, no-data calendar yields one entry dated by
the second date and completes (its provider serves no bar at all, so no
zero close); a one-date calendar fails for every strategy with the
portfolio untouched. -/
theorem C5_run_contract_witness :
    (((run bareDP (fun _ _ => []) ⟨100, []⟩).2
        = Except.error RunError.not_enough_index_data ↔ bareDP.index_dates.length < 2) ∧
      (BacktestResult.mk [1] [100]).dates = bareDP.index_dates.tail ∧
      (BacktestResult.mk [1] [100]).dates.length = bareDP.index_dates.length - 1 ∧
      (BacktestResult.mk [1] [100]).values.length = bareDP.index_dates.length - 1) ∧
    (run soloDP (fun _ _ => []) ⟨7, []⟩
      = (⟨7, []⟩, Except.error RunError.not_enough_index_data)) ∧
    (∃ res : BacktestResult, (run bareDP (fun _ _ => []) ⟨100, []⟩).2 = Except.ok res) :=
  ⟨⟨(C5_run_contract bareDP (fun _ _ => []) ⟨100, []⟩).1,
      (C5_run_contract bareDP (fun _ _ => []) ⟨100, []⟩).2.2.1 ⟨[1], [100]⟩ rfl⟩,
    (C5_run_contract soloDP (fun _ _ => []) ⟨0, []⟩).2.1 (by norm_num [soloDP])
      (fun _ _ => []) ⟨7, []⟩,
    (C5_run_contract bareDP (fun _ _ => []) ⟨100, []⟩).2.2.2
      (by intro s d bar hbar; simp [bareDP] at hbar)
      (by norm_num [bareDP])⟩

/-! ### Claim C8 -/

theorem runLoopRaw_wrap (dp : AkshareDataProvider) (strategy : Strategy) :
    ∀ (steps : List (ℕ × ℕ)) (p : Portfolio),
      runLoopRaw dp (fun d q => (strategy d q, q)) steps p
        = runLoop dp strategy steps p := by
  intro steps
  induction steps with
  | nil => intro p; rfl
  | cons pr2 rest ih =>
      intro p
      rcases pr2 with ⟨c, n⟩
      have hstep : runStepRaw dp (fun d q => (strategy d q, q)) p c n
          = runStep dp strategy p c n := rfl
      simp only [runLoopRaw, runLoop, hstep, ih]

/-- C8 counterexample: two policies that return identical (empty) order
lists, one of which additionally zeroes the cash balance through the live
portfolio the context exposes, leave the engine in different final states —
so a mutation performed through the context's portfolio does change the
engine's Portfolio state, refuting the claim as stated. -/
theorem C8_counterexample :
    (runRaw bareDP (fun _ q => ([], { q with cash := 0 })) ⟨100, []⟩).1
      ≠ (runRaw bareDP (fun _ q => ([], q)) ⟨100, []⟩).1 := by
  decide

/-- C8 (amended): the strategy context exposes the live Portfolio, so the
engine does not prevent a policy from mutating it; read-only use is a
discipline required of policies, not enforced.  For every policy that
honours it — returning orders without touching the portfolio — a run is
exactly the engine's own loop: the Portfolio is mutated only by the
order-execution step. -/
theorem C8_read_only_policy (dp : AkshareDataProvider) (strategy : Strategy)
    (p : Portfolio) :
    runRaw dp (fun d q => (strategy d q, q)) p = run dp strategy p := by
  by_cases h : dp.index_dates.length < 2
  · simp [runRaw, run, h]
  · simp only [runRaw, run, if_neg h]
    rw [runLoopRaw_wrap]

/-! ### Claim C6 -/

theorem total_value_union (dp : AkshareDataProvider) (date : ℕ) (p : Portfolio)
    (orders : List Order) (hWF : (keys p.positions).Nodup) :
    p.total_value
        (dp.get_close_prices (keys p.positions ++ orders.map Order.symbol) date)
      = specSizingValue dp date p orders := by
  rw [total_value_eq_sum]
  have hmap : p.positions.map
      (contrib (dp.get_close_prices (keys p.positions ++ orders.map Order.symbol) date))
      = p.positions.map fun kv =>
          kv.2.quantity * ((dp.get_bar kv.1 date).map Bar.close_price).getD 0 := by
    refine List.map_congr_left fun kv hkv => ?_
    have hmem : kv.1 ∈ keys p.positions ++ orders.map Order.symbol :=
      List.mem_append_left _ (List.mem_map_of_mem Prod.fst hkv)
    simp only [contrib, AkshareDataProvider.get_close_prices, if_pos hmem]
    rcases dp.get_bar kv.1 date with _ | bar
    · simp
    · simp [Position.market_value]
  rw [hmap]
  simp only [specSizingValue, unionSyms]
  rw [List.map_append, List.sum_append]
  have hz : (((((orders.map Order.symbol).filter
        fun s => s ∉ keys p.positions)).dedup).map
      fun s => p.heldQty s * ((dp.get_bar s date).map Bar.close_price).getD 0).sum
      = 0 := by
    refine List.sum_eq_zero fun x hx => ?_
    rcases List.mem_map.mp hx with ⟨s, hs, rfl⟩
    have hsf := List.mem_dedup.mp hs
    have hsnot : s ∉ keys p.positions := by
      have hpred := (List.mem_filter.mp hsf).2
      rw [decide_eq_true_iff] at hpred
      exact hpred
    have hq0 : p.heldQty s = 0 := by
      rw [Portfolio.heldQty, qtyAt, (lookupPos_eq_none _ _).mpr hsnot]
    rw [hq0, zero_mul]
  rw [hz, add_zero]
  simp only [Portfolio.heldQty]
  rw [← sum_keys_qty (fun s => ((dp.get_bar s date).map Bar.close_price).getD 0)
    p.positions hWF]

/-- C6: execution-step sizing valuation.  On a date where at least one
order symbol is priced, the `total_value` used to size every order on that
date equals cash plus quantity × current-date close summed over the union
of held and order symbols, held symbols without a close contributing zero
(`specSizingValue`); each order priced at a non-zero close trades exactly
`(total_value × target_percent − held_quantity × price) / price`, the
buy/sell decision reading that quantity; and an order priced at a zero
close raises `ZeroDivisionError` with the state unchanged, as the
source's unguarded `value_diff / price` does. -/
theorem C6_sizing_valuation (dp : AkshareDataProvider) (date : ℕ)
    (orders : List Order) (p : Portfolio)
    (hWF : (keys p.positions).Nodup)
    (hpriced : ((orders.map Order.symbol).all fun s =>
        (dp.get_close_prices (orders.map Order.symbol) date s).isNone) = false) :
    (execute_orders dp date orders p
      = processOrdersLoop (dp.get_close_prices (orders.map Order.symbol) date)
          (specSizingValue dp date p orders) orders p) ∧
    (∀ (cp : String → Option ℚ) (tv : ℚ) (q : Portfolio) (o : Order) (pr : ℚ),
      cp o.symbol = some pr → pr ≠ 0 →
      processOrder cp tv q o
        = if 0 < (tv * o.target_percent - q.heldQty o.symbol * pr) / pr then
            ((q.buy o.symbol
                ((tv * o.target_percent - q.heldQty o.symbol * pr) / pr) pr).1, none)
          else if (tv * o.target_percent - q.heldQty o.symbol * pr) / pr < 0 then
            (q.sell o.symbol
                (-((tv * o.target_percent - q.heldQty o.symbol * pr) / pr)) pr, none)
          else (q, none)) ∧
    (∀ (cp : String → Option ℚ) (tv : ℚ) (q : Portfolio) (o : Order),
      cp o.symbol = some 0 →
      processOrder cp tv q o = (q, some ZeroDivisionError.float_division_by_zero)) := by
  refine ⟨?_, ?_, ?_⟩
  · simp only [execute_orders]
    rw [if_neg (by simp [hpriced]), total_value_union dp date p orders hWF]
  · intro cp tv q o pr hpr hpr0
    simp only [processOrder, hpr]
    rw [if_neg hpr0]
    have hcur : (match lookupPos q.positions o.symbol with
        | some pos => pos.quantity * pr
        | none => 0) = q.heldQty o.symbol * pr := by
      rw [Portfolio.heldQty, qtyAt]
      rcases lookupPos q.positions o.symbol with _ | pos
      · simp
      · rfl
    rw [hcur]
  · intro cp tv q o hpr
    simp only [processOrder, hpr]
    rw [if_true]

/-- Witness for C6: the spec's worked scenario (one half-weight order for
"A" closing at 100, against a fresh million-cash portfolio), a concrete
non-zero-priced order processed through the quantity formula, and a
zero-close-priced order raising with the state unchanged. -/
theorem C6_sizing_valuation_witness :
    (execute_orders scenarioDP 0 [⟨"A", 1 / 2⟩] ⟨1000000, []⟩
      = processOrdersLoop (scenarioDP.get_close_prices
            ([(⟨"A", 1 / 2⟩ : Order)].map Order.symbol) 0)
          (specSizingValue scenarioDP 0 ⟨1000000, []⟩ [⟨"A", 1 / 2⟩])
          [⟨"A", 1 / 2⟩] ⟨1000000, []⟩) ∧
    (processOrder sampleLookup 240 samplePortfolio ⟨"A", 1⟩
      = if 0 < (240 * (1 : ℚ) - samplePortfolio.heldQty "A" * 10) / 10 then
          ((samplePortfolio.buy "A"
              ((240 * (1 : ℚ) - samplePortfolio.heldQty "A" * 10) / 10) 10).1, none)
        else if (240 * (1 : ℚ) - samplePortfolio.heldQty "A" * 10) / 10 < 0 then
          (samplePortfolio.sell "A"
              (-((240 * (1 : ℚ) - samplePortfolio.heldQty "A" * 10) / 10)) 10, none)
        else (samplePortfolio, none)) ∧
    (processOrder zeroLookup 50 samplePortfolio ⟨"Z", 1⟩
      = (samplePortfolio, some ZeroDivisionError.float_division_by_zero)) :=
  ⟨(C6_sizing_valuation scenarioDP 0 [⟨"A", 1 / 2⟩] ⟨1000000, []⟩
      (by decide) (by decide)).1,
    (C6_sizing_valuation scenarioDP 0 [⟨"A", 1 / 2⟩] ⟨1000000, []⟩
      (by decide) (by decide)).2.1 sampleLookup 240 samplePortfolio ⟨"A", 1⟩ 10
      (by decide) (by norm_num),
    (C6_sizing_valuation scenarioDP 0 [⟨"A", 1 / 2⟩] ⟨1000000, []⟩
      (by decide) (by decide)).2.2 zeroLookup 50 samplePortfolio ⟨"Z", 1⟩
      (by decide)⟩

end Backtest
